import Mathlib

/-!
Shallow embedding of `src/skill-markdown2rednote/scripts/md_to_image.py`
(layout and pagination engine of the markdown-to-image converter).

Conventions of the embedding:
* Python strings are `List Char`; Python lists are Lean lists.
* Pixel widths and heights are `Nat` (PIL bounding-box widths and the
  style constants are non-negative in every configuration the program
  builds; all subtractions that occur in the claims proved below are on
  arguments where the minuend dominates).
* Font metrics (`_get_text_size`) are a parameter
  `measure : Font → List Char → Nat`, one abstract font per font slot
  loaded by `ImageRenderer._load_fonts`.
* Drawing calls have no influence on any returned value of the Python
  functions modelled here, so the embedding keeps only the data flow
  (segment lists, wrapped lines, y coordinates).
-/

namespace MdImg

/-- Inline segment kinds produced by `_parse_inline_format`
(the `'type'` field of a segment dictionary). -/
inductive SegType
  | normal
  | bold
  | italic
  | bold_italic
  | code
  | highlight
deriving DecidableEq, Repr

/-- A segment dictionary `{'type': ..., 'content': ...}`. -/
structure Seg where
  type : SegType
  content : List Char
deriving DecidableEq, Repr

/-- The font slots loaded by `ImageRenderer._load_fonts`. -/
inductive Font
  | title
  | h1
  | h2
  | h3
  | body
  | code
  | small
  | bold
deriving DecidableEq, Repr

/-- Abstract font metrics: `_get_text_size(text, font)[0]`, the pixel
width of `text` rendered in `font`. -/
abbrev Measure := Font → List Char → Nat

/-- `StyleConfig` (the numeric fields; colors and font paths do not
enter any layout computation). Defaults are the dataclass defaults. -/
structure StyleConfig where
  width : Nat := 900
  height : Nat := 1600
  margin_left : Nat := 50
  margin_right : Nat := 50
  margin_top : Nat := 50
  margin_bottom : Nat := 50
  title_font_size : Nat := 60
  h1_font_size : Nat := 52
  h2_font_size : Nat := 44
  h3_font_size : Nat := 40
  body_font_size : Nat := 36
  code_font_size : Nat := 28
  small_font_size : Nat := 26
  title_line_spacing : Nat := 82
  h1_line_spacing : Nat := 72
  h2_line_spacing : Nat := 64
  h3_line_spacing : Nat := 56
  body_line_spacing : Nat := 64
  code_line_spacing : Nat := 50
  paragraph_spacing : Nat := 40
deriving DecidableEq, Repr

/-- The default `StyleConfig()`. -/
def defaultStyle : StyleConfig := {}

/-- Block elements produced by `MarkdownParser.parse` (the element
dictionaries, one constructor per `'type'` tag). -/
inductive Element
  | h1 (content : List Char)
  | h2 (content : List Char)
  | h3 (content : List Char)
  | paragraph (content : List Char)
  | code (content : List Char) (language : List Char)
  | quote (content : List Char)
  | list (items : List (List Char))
  | ordered_list (items : List (List Char))
  | hr
deriving DecidableEq, Repr

/-! ### Inline span tokenizer: `_parse_inline_format` -/

/-- Python `text.find(pat)` on a suffix: index of the first occurrence
of `pat` as a contiguous substring, `none` when absent. -/
def findSub (pat : List Char) : List Char → Option Nat
  | [] => if pat = [] then some 0 else none
  | c :: t => if pat.isPrefixOf (c :: t) then some 0 else (findSub pat t).map (· + 1)

/-- The characters the normal-text branch of `_parse_inline_format`
stops at (`text[pos] in '*`_='`). -/
def isSpecial (c : Char) : Bool :=
  c = '*' || c = '`' || c = '_' || c = '='

/-- Index of the first special character, `none` when there is none
(the `next_special` search of the normal-text branch). -/
def findIdxSp : List Char → Option Nat
  | [] => none
  | c :: t => if isSpecial c then some 0 else (findIdxSp t).map (· + 1)

def star3 : List Char := ['*', '*', '*']

def star2 : List Char := ['*', '*']

def eq2c : List Char := ['=', '=']

def under2 : List Char := ['_', '_']

/-- The `***…***` branch: requires `i + 6 <= n`, an opening `***`, and a
closing `***` found by `text.find`. -/
def tryStar3 (t : List Char) : Option (SegType × List Char × List Char) :=
  if 6 ≤ t.length ∧ star3.isPrefixOf t then
    match findSub star3 (t.drop 3) with
    | some j => some (SegType.bold_italic, (t.drop 3).take j, (t.drop 3).drop (j + 3))
    | none => none
  else none

/-- The `**…**` branch: requires `i + 4 <= n`, an opening `**`, and a
closing `**`. -/
def tryStar2 (t : List Char) : Option (SegType × List Char × List Char) :=
  if 4 ≤ t.length ∧ star2.isPrefixOf t then
    match findSub star2 (t.drop 2) with
    | some j => some (SegType.bold, (t.drop 2).take j, (t.drop 2).drop (j + 2))
    | none => none
  else none

/-- The `*…*` branch: requires `i + 2 <= n`, `text[i] == '*'`,
`text[i:i+2] != '**'`, a closing `*`, and that the closer does not start
a `**` run. -/
def tryStar1 (t : List Char) : Option (SegType × List Char × List Char) :=
  if 2 ≤ t.length ∧ t.head? = some '*' ∧ ¬ star2.isPrefixOf t then
    match findSub (['*']) t.tail with
    | some j =>
      if star2.isPrefixOf (t.tail.drop j) then none
      else some (SegType.italic, t.tail.take j, t.tail.drop (j + 1))
    | none => none
  else none

/-- The `` `…` `` branch: requires `text[i] == '`'` and a closing
backtick. -/
def tryTick (t : List Char) : Option (SegType × List Char × List Char) :=
  if t.head? = some '`' then
    match findSub (['`']) t.tail with
    | some j => some (SegType.code, t.tail.take j, t.tail.drop (j + 1))
    | none => none
  else none

/-- The `==…==` branch. -/
def tryEq (t : List Char) : Option (SegType × List Char × List Char) :=
  if 4 ≤ t.length ∧ eq2c.isPrefixOf t then
    match findSub eq2c (t.drop 2) with
    | some j => some (SegType.highlight, (t.drop 2).take j, (t.drop 2).drop (j + 2))
    | none => none
  else none

/-- The `__…__` branch (bold). -/
def tryUnder2 (t : List Char) : Option (SegType × List Char × List Char) :=
  if 4 ≤ t.length ∧ under2.isPrefixOf t then
    match findSub under2 (t.drop 2) with
    | some j => some (SegType.bold, (t.drop 2).take j, (t.drop 2).drop (j + 2))
    | none => none
  else none

/-- The `_…_` branch: `text[i] == '_'`, `text[i:i+2] != '__'`, a closing
`_` not starting a `__` run. -/
def tryUnder1 (t : List Char) : Option (SegType × List Char × List Char) :=
  if t.head? = some '_' ∧ ¬ under2.isPrefixOf t then
    match findSub (['_']) t.tail with
    | some j =>
      if under2.isPrefixOf (t.tail.drop j) then none
      else some (SegType.italic, t.tail.take j, t.tail.drop (j + 1))
    | none => none
  else none

/-- One pass over the delimiter branches in source order; the first
branch that sets `matched` wins. -/
def attempt (t : List Char) : Option (SegType × List Char × List Char) :=
  match tryStar3 t with
  | some r => some r
  | none =>
    match tryStar2 t with
    | some r => some r
    | none =>
      match tryStar1 t with
      | some r => some r
      | none =>
        match tryTick t with
        | some r => some r
        | none =>
          match tryEq t with
          | some r => some r
          | none =>
            match tryUnder2 t with
            | some r => some r
            | none => tryUnder1 t

/-- The scanning loop of `_parse_inline_format`, producing the raw
`segments` list.  Structured on explicit fuel (each iteration consumes
at least one character, so fuel `text.length` is always enough). -/
def scanSegs : Nat → List Char → List Seg
  | 0, _ => []
  | _, [] => []
  | fuel + 1, c :: t' =>
    match attempt (c :: t') with
    | some (k, cont, rest) =>
      (if cont = [] then [] else [⟨k, cont⟩]) ++ scanSegs fuel rest
    | none =>
      match findIdxSp t' with
      | none => [⟨SegType.normal, c :: t'⟩]
      | some j => ⟨SegType.normal, c :: t'.take j⟩ :: scanSegs fuel (t'.drop j)

/-- The raw `segments` list of `_parse_inline_format`. -/
def scan (text : List Char) : List Seg := scanSegs text.length text

/-- One iteration of the merge loop at the end of
`_parse_inline_format`: empty contents are skipped, a normal segment is
merged into a trailing normal segment, anything else is appended. -/
def mergeStep (merged : List Seg) (seg : Seg) : List Seg :=
  if seg.content = [] then merged
  else
    match merged.getLast? with
    | some lastSeg =>
      if seg.type = SegType.normal ∧ lastSeg.type = SegType.normal then
        merged.dropLast ++ [⟨SegType.normal, lastSeg.content ++ seg.content⟩]
      else merged ++ [seg]
    | none => [seg]

/-- The merge pass of `_parse_inline_format`. -/
def mergeSegs (segs : List Seg) : List Seg := segs.foldl mergeStep []

/-- `_parse_inline_format`: scan, merge, and fall back to one normal
segment holding the whole input when the merged list is empty. -/
def parseInline (text : List Char) : List Seg :=
  let merged := mergeSegs (scan text)
  if merged = [] then [⟨SegType.normal, text⟩] else merged

/-! ### Plain-text wrapping: `_wrap_text` -/

/-- One character step of the `_wrap_text` loop; the state is
`(lines, current_line)`. -/
def wrapTextStep (measure : Measure) (font : Font) (maxW : Nat)
    (st : List (List Char) × List Char) (ch : Char) : List (List Char) × List Char :=
  let test := st.2 ++ [ch]
  if measure font test ≤ maxW then (st.1, test)
  else ((if st.2 = [] then st.1 else st.1 ++ [st.2]), [ch])

/-- `_wrap_text(text, font, max_width)`. -/
def wrapText (measure : Measure) (font : Font) (maxW : Nat) (text : List Char) :
    List (List Char) :=
  let st := text.foldl (wrapTextStep measure font maxW) ([], [])
  let lines := if st.2 = [] then st.1 else st.1 ++ [st.2]
  if lines = [] then (if text = [] then [] else [text]) else lines

/-! ### Formatted wrapping: `_wrap_formatted_text` -/

/-- Font selection inside `_wrap_formatted_text`: bold segments use the
bold font, code segments the code font, everything else the font passed
in. -/
def segFont (font : Font) : SegType → Font
  | SegType.bold => Font.bold
  | SegType.code => Font.code
  | _ => font

/-- The `is_formatted` helper of `_wrap_formatted_text`. -/
def isFormatted : SegType → Bool
  | SegType.bold => true
  | SegType.italic => true
  | SegType.bold_italic => true
  | SegType.highlight => true
  | SegType.code => true
  | SegType.normal => false

/-- Appending content of kind `t` to the current line, merging into a
trailing segment of the same kind (the
`current_line[-1]['type'] == seg_type` merge). -/
def appendSeg (cur : List Seg) (t : SegType) (c : List Char) : List Seg :=
  match cur.getLast? with
  | some lastSeg =>
    if lastSeg.type = t then cur.dropLast ++ [⟨t, lastSeg.content ++ c⟩]
    else cur ++ [⟨t, c⟩]
  | none => [⟨t, c⟩]

/-- Loop state of `_wrap_formatted_text`:
`lines`, `current_line`, `current_width`. -/
structure WrapState where
  lines : List (List Seg)
  cur : List Seg
  width : Nat
deriving DecidableEq, Repr

/-- The character-level fallback loop of `_wrap_formatted_text`
(splitting a segment of kind `k` measured with font `sFont`). -/
def wrapChars (measure : Measure) (sFont : Font) (k : SegType) (maxW : Nat) :
    WrapState → List Char → WrapState
  | st, [] => st
  | st, ch :: rest =>
    let cw := measure sFont [ch]
    if st.width + cw ≤ maxW then
      wrapChars measure sFont k maxW ⟨st.lines, appendSeg st.cur k [ch], st.width + cw⟩ rest
    else
      wrapChars measure sFont k maxW
        ⟨(if st.cur = [] then st.lines else st.lines ++ [st.cur]), [⟨k, [ch]⟩], cw⟩ rest

/-- One segment step of `_wrap_formatted_text`: whole-segment fit,
flush-and-restart for a formatted segment that fits an empty line, or
character-level splitting. -/
def wrapStep (measure : Measure) (font : Font) (maxW : Nat)
    (st : WrapState) (seg : Seg) : WrapState :=
  let sFont := segFont font seg.type
  let segWidth := measure sFont seg.content
  if st.width + segWidth ≤ maxW then
    ⟨st.lines, appendSeg st.cur seg.type seg.content, st.width + segWidth⟩
  else if isFormatted seg.type ∧ segWidth ≤ maxW then
    ⟨(if st.cur = [] then st.lines else st.lines ++ [st.cur]),
      [⟨seg.type, seg.content⟩], segWidth⟩
  else
    wrapChars measure (segFont font seg.type) seg.type maxW st seg.content

/-- `_wrap_formatted_text(segments, font, max_width)`. -/
def wrapFormatted (measure : Measure) (font : Font) (maxW : Nat)
    (segs : List Seg) : List (List Seg) :=
  let st := segs.foldl (wrapStep measure font maxW) ⟨[], [], 0⟩
  let lines := if st.cur = [] then st.lines else st.lines ++ [st.cur]
  if lines = [] then [[]] else lines

/-! ### Height estimation: `_calculate_element_height` -/

/-- Python `content.split('\n')` (always at least one piece). -/
def splitNl : List Char → List (List Char)
  | [] => [[]]
  | c :: t =>
    if c = '\n' then [] :: splitNl t
    else
      match splitNl t with
      | l :: ls => (c :: l) :: ls
      | [] => [[c]]

/-- The `f"{i+1}. "` item marker of the ordered-list branches. -/
def olMark (i : Nat) : List Char := Nat.toDigits 10 (i + 1) ++ ['.', ' ']

/-- `_calculate_element_height(element, max_width)`. -/
def calcHeight (measure : Measure) (style : StyleConfig) (element : Element)
    (maxW : Nat) : Nat :=
  match element with
  | Element.h1 content =>
    (wrapText measure Font.h1 maxW content).length * style.h1_line_spacing
  | Element.h2 content =>
    (wrapText measure Font.h2 maxW content).length * style.h2_line_spacing
  | Element.h3 content =>
    (wrapText measure Font.h3 maxW content).length * style.h3_line_spacing
  | Element.paragraph content =>
    (wrapFormatted measure Font.body maxW (parseInline content)).length *
      style.body_line_spacing + style.paragraph_spacing
  | Element.code content _ =>
    (splitNl content).length * style.code_line_spacing + 40
  | Element.quote content =>
    (wrapText measure Font.body (maxW - 40) content).length *
      style.body_line_spacing + 30
  | Element.list items =>
    (items.foldl (fun h item =>
      h + (wrapText measure Font.body (maxW - 40) item).length *
        style.body_line_spacing + 10) 0) + 10
  | Element.ordered_list items =>
    ((items.enum).foldl (fun h p =>
      h + (wrapText measure Font.body (maxW - 40) (olMark p.1 ++ p.2)).length *
        style.body_line_spacing + 10) 0) + 10
  | Element.hr => 40

/-! ### Rendering y-flow: `_render_element`

Only the returned y coordinate is modelled; the draw calls do not feed
back into it.  The per-line loops are kept as folds over the wrapped
lines, exactly as the Python accumulates `y`. -/

/-- Prefixing a bullet or ordered-list marker onto a segment list
(`segments[0]['content'] = prefix + ...` or insertion of a new normal
segment at the front). -/
def addMarker (pre : List Char) (segs : List Seg) : List Seg :=
  match segs with
  | ⟨SegType.normal, c⟩ :: rest => ⟨SegType.normal, pre ++ c⟩ :: rest
  | _ => ⟨SegType.normal, pre⟩ :: segs

/-- `_render_element(draw, element, x, y, max_width)` as a function of
the incoming `y`, returning the y coordinate the Python function
returns. -/
def renderYAfter (measure : Measure) (style : StyleConfig) (element : Element)
    (y : Nat) (maxW : Nat) : Nat :=
  match element with
  | Element.h1 content =>
    ((wrapText measure Font.h1 maxW content).foldl
      (fun yy _ => yy + style.h1_line_spacing) y) + 20
  | Element.h2 content =>
    ((wrapText measure Font.h2 maxW content).foldl
      (fun yy _ => yy + style.h2_line_spacing) y) + 15
  | Element.h3 content =>
    ((wrapText measure Font.h3 maxW content).foldl
      (fun yy _ => yy + style.h3_line_spacing) y) + 10
  | Element.paragraph content =>
    ((wrapFormatted measure Font.body maxW (parseInline content)).foldl
      (fun yy _ => yy + style.body_line_spacing) y) + style.paragraph_spacing
  | Element.code content _ =>
    let blockHeight := (splitNl content).length * style.code_line_spacing + 30
    y + blockHeight + 20
  | Element.quote content =>
    let quoteWidth := maxW - 30
    let lines := wrapFormatted measure Font.body (quoteWidth - 20) (parseInline content)
    let quoteHeight := lines.length * style.body_line_spacing + 20
    y + quoteHeight + 20
  | Element.list items =>
    (items.foldl (fun yy item =>
      ((wrapFormatted measure Font.body maxW
          (addMarker ['•', ' '] (parseInline item))).foldl
        (fun y2 _ => y2 + style.body_line_spacing) yy) + 10) y) + 10
  | Element.ordered_list items =>
    ((items.enum).foldl (fun yy p =>
      ((wrapFormatted measure Font.body maxW
          (addMarker (olMark p.1) (parseInline p.2))).foldl
        (fun y2 _ => y2 + style.body_line_spacing) yy) + 10) y) + 10
  | Element.hr => y + 40

/-! ### Pagination: the element loop of `ImageRenderer.render` -/

/-- Pagination state: sealed pages, the accumulator page, and
`current_y`. -/
structure PageState where
  pages : List (List Element)
  cur : List Element
  curY : Nat
deriving DecidableEq, Repr

/-- One element step of `ImageRenderer.render`: overflow seals the
non-empty accumulator and restarts with this element. -/
def paginateStep (measure : Measure) (style : StyleConfig)
    (maxContentHeight contentWidth : Nat) (st : PageState) (element : Element) :
    PageState :=
  let h := calcHeight measure style element contentWidth
  if maxContentHeight < st.curY + h then
    ⟨(if st.cur = [] then st.pages else st.pages ++ [st.cur]), [element],
      style.margin_top + h⟩
  else
    ⟨st.pages, st.cur ++ [element], st.curY + h⟩

/-- The pagination loop of `ImageRenderer.render`, returning the pages
(each the element list handed to `_save_page`). -/
def paginate (measure : Measure) (style : StyleConfig) (elements : List Element) :
    List (List Element) :=
  let contentWidth := style.width - style.margin_left - style.margin_right
  let maxContentHeight := style.height - (style.margin_bottom + 20)
  let st := elements.foldl
    (paginateStep measure style maxContentHeight contentWidth)
    ⟨[], [], style.margin_top⟩
  if st.cur = [] then st.pages else st.pages ++ [st.cur]

/-! ### Newline promotion in `MarkdownToImage.convert`

`re.sub(r'([^\n])\n([^\n])', r'\1\n\n\2', md_content)`: scan left to
right; where the three-character pattern matches, emit the doubled
newline and resume after the match; otherwise emit one character and
move on. -/

/-- The preprocessing substitution of `MarkdownToImage.convert`. -/
def promoteNl : List Char → List Char
  | c1 :: c2 :: c3 :: rest =>
    if c1 ≠ '\n' ∧ c2 = '\n' ∧ c3 ≠ '\n' then
      c1 :: '\n' :: '\n' :: c3 :: promoteNl rest
    else c1 :: promoteNl (c2 :: c3 :: rest)
  | t => t

/-! ### Vocabulary used by the claims -/

/-- Concatenated text of a segment list. -/
def segsText (l : List Seg) : List Char := (l.map Seg.content).flatten

/-- Concatenated text of a list of wrapped lines. -/
def linesText (l : List (List Seg)) : List Char := (l.map segsText).flatten

/-- Text accumulated in a `_wrap_formatted_text` loop state. -/
def stText (st : WrapState) : List Char := linesText st.lines ++ segsText st.cur

/-- Sum of the measured widths of a line's segments (each measured the
way `_wrap_formatted_text` measures that kind). -/
def lineWidth (measure : Measure) (font : Font) (line : List Seg) : Nat :=
  (line.map (fun s => measure (segFont font s.type) s.content)).sum

/-- The line invariant of the claims: the measured widths sum to at most
`maxW`, or the line is a single one-character segment that alone is
wider than `maxW`. -/
def lineFits (measure : Measure) (font : Font) (maxW : Nat) (line : List Seg) : Bool :=
  decide (lineWidth measure font line ≤ maxW) ||
    (match line with
     | [s] => decide (s.content.length = 1) &&
         decide (maxW < measure (segFont font s.type) s.content)
     | _ => false)

/-- No two consecutive segments share a kind (the property claimed for
the tokenizer output). -/
def noAdjacentSameKind (l : List Seg) : Prop :=
  List.Chain' (fun a b => a.type ≠ b.type) l

/-- No two consecutive segments are both normal (what the merge pass of
`_parse_inline_format` actually guarantees). -/
def noAdjacentNormal (l : List Seg) : Prop :=
  List.Chain' (fun a b => ¬ (a.type = SegType.normal ∧ b.type = SegType.normal)) l

/-- Example metrics: every string is as wide as its length. -/
def measureLen : Measure := fun _ s => s.length

/-- Example metrics: ten pixels per character. -/
def measureTen : Measure := fun _ s => 10 * s.length

/-- Example non-additive metrics (strings of length at least two are
disproportionately wide, as a font with negative kerning could be). -/
def measureJump : Measure := fun _ s => if s.length ≤ 1 then 6 else 20

/-! ### Balanced-delimiter texts (input class of the round-trip claim)

The spec quantifies the tokenizer round trip over "any text with
balanced delimiters" without defining the notion.  The class is made
precise here, from the spec's words: a balanced text is assembled from
non-empty plain runs containing no delimiter characters and
delimiter-enclosed non-empty runs, a delimited run always followed by a
plain run or the end of the text (so that its closer is never adjacent
to further delimiter characters), and no two plain runs adjacent. -/

/-- The delimiter spellings recognized by `_parse_inline_format`. -/
inductive Delim
  | d3star
  | d2star
  | d1star
  | dtick
  | d2eq
  | d2under
  | d1under
deriving DecidableEq, Repr

/-- The characters of a delimiter spelling. -/
def delimChars : Delim → List Char
  | Delim.d3star => star3
  | Delim.d2star => star2
  | Delim.d1star => ['*']
  | Delim.dtick => ['`']
  | Delim.d2eq => eq2c
  | Delim.d2under => under2
  | Delim.d1under => ['_']

/-- The segment kind a delimiter spelling produces. -/
def delimKind : Delim → SegType
  | Delim.d3star => SegType.bold_italic
  | Delim.d2star => SegType.bold
  | Delim.d1star => SegType.italic
  | Delim.dtick => SegType.code
  | Delim.d2eq => SegType.highlight
  | Delim.d2under => SegType.bold
  | Delim.d1under => SegType.italic

/-- One run of a balanced text: a plain run or a delimited run. -/
inductive MdItem
  | plainRun (s : List Char)
  | delimRun (d : Delim) (s : List Char)
deriving DecidableEq, Repr

/-- The concrete text of one run. -/
def renderItem : MdItem → List Char
  | MdItem.plainRun s => s
  | MdItem.delimRun d s => delimChars d ++ s ++ delimChars d

/-- The concrete text of a balanced run sequence. -/
def renderItems (items : List MdItem) : List Char :=
  (items.map renderItem).flatten

/-- The text with the delimiter markers removed. -/
def stripItems (items : List MdItem) : List Char :=
  (items.map (fun it => match it with
    | MdItem.plainRun s => s
    | MdItem.delimRun _ s => s)).flatten

/-- The spans a balanced run sequence should tokenize to. -/
def itemSegs : List MdItem → List Seg
  | [] => []
  | MdItem.plainRun s :: rest => ⟨SegType.normal, s⟩ :: itemSegs rest
  | MdItem.delimRun d s :: rest => ⟨delimKind d, s⟩ :: itemSegs rest

/-- A usable run content: non-empty and free of delimiter characters. -/
def plainOk (s : List Char) : Bool :=
  !s.isEmpty && s.all (fun c => !isSpecial c)

/-- After a plain run: end of text or a delimited run. -/
def headOkAfterPlain : List MdItem → Bool
  | [] => true
  | MdItem.plainRun _ :: _ => false
  | MdItem.delimRun _ _ :: _ => true

/-- After a delimited run: end of text or a plain run. -/
def headOkAfterDelim : List MdItem → Bool
  | [] => true
  | MdItem.plainRun _ :: _ => true
  | MdItem.delimRun _ _ :: _ => false

/-- Well-formed (balanced) run sequences. -/
def balancedItems : List MdItem → Bool
  | [] => true
  | MdItem.plainRun s :: rest =>
    plainOk s && headOkAfterPlain rest && balancedItems rest
  | MdItem.delimRun _ s :: rest =>
    plainOk s && headOkAfterDelim rest && balancedItems rest

/-- Whether a text starts with a non-delimiter character (or is empty). -/
def headNotSpecial : List Char → Bool
  | [] => true
  | c :: _ => !isSpecial c

/-! ## Theorems -/

/-- Folding a constant increment over a list. -/
theorem foldl_add_const {α : Type} (k : Nat) (l : List α) : ∀ (y : Nat),
    l.foldl (fun yy _ => yy + k) y = y + l.length * k := by
  induction l with
  | nil => intro y; simp
  | cons a l ih =>
    intro y
    rw [List.foldl_cons, ih]
    simp [List.length_cons]
    ring

/-- One pagination step preserves the flattened element sequence. -/
theorem paginateStep_flatten (measure : Measure) (style : StyleConfig)
    (mh cw : Nat) (st : PageState) (e : Element) :
    ((paginateStep measure style mh cw st e).pages).flatten
        ++ (paginateStep measure style mh cw st e).cur
      = (st.pages.flatten ++ st.cur) ++ [e] := by
  simp only [paginateStep]
  split
  · split
    · rename_i hc
      simp [hc]
    · simp
  · simp

/-- The pagination fold preserves the flattened element sequence. -/
theorem paginate_fold_flatten (measure : Measure) (style : StyleConfig)
    (mh cw : Nat) (es : List Element) : ∀ (st : PageState),
    ((es.foldl (paginateStep measure style mh cw) st).pages).flatten
        ++ (es.foldl (paginateStep measure style mh cw) st).cur
      = st.pages.flatten ++ st.cur ++ es := by
  induction es with
  | nil => intro st; simp
  | cons e es ih =>
    intro st
    rw [List.foldl_cons, ih, paginateStep_flatten]
    simp

/-- C9: the pages produced by the pagination loop of
`ImageRenderer.render`, concatenated in order, are exactly the input
element sequence: relative order of blocks is preserved across and
within pages, and no block is dropped or placed on two pages. -/
theorem paginate_flatten (measure : Measure) (style : StyleConfig)
    (elements : List Element) :
    (paginate measure style elements).flatten = elements := by
  simp only [paginate]
  have h := paginate_fold_flatten measure style
    (style.height - (style.margin_bottom + 20))
    (style.width - style.margin_left - style.margin_right)
    elements ⟨[], [], style.margin_top⟩
  simp at h
  split
  · rename_i hc
    rw [hc] at h
    simpa using h
  · simpa using h

/-- C10 (amended): whenever the scanning loop of `_parse_inline_format`
produces no segments (every matched delimiter pair encloses empty
content and no other characters occur — e.g. the empty string, `****`,
`====`), the tokenizer returns exactly one normal span holding the
whole unmodified input. -/
theorem parseInline_empty_scan_fallback (text : List Char)
    (h : scan text = []) :
    parseInline text = [⟨SegType.normal, text⟩] := by
  simp [parseInline, h, mergeSegs]

/-- Witness for C10 at the input `====`. -/
theorem parseInline_empty_scan_fallback_witness :
    scan (("====").toList) = []
    ∧ parseInline (("====").toList) = [⟨SegType.normal, ("====").toList⟩] :=
  ⟨by decide, parseInline_empty_scan_fallback _ (by decide)⟩

/-- C10 counterexample: `a====` has only empty-content matched pairs,
yet the tokenizer output is one normal span `a`, not the whole input
(the `====` is dropped because a non-empty span exists). -/
theorem parseInline_mixed_empty_pairs_drop :
    parseInline (("a====").toList) = [⟨SegType.normal, ['a']⟩]
    ∧ parseInline (("a====").toList) ≠ [⟨SegType.normal, ("a====").toList⟩] := by
  constructor
  · decide
  · decide

/-- C1 (amended): for paragraph and horizontal-rule blocks the height
computed by `_calculate_element_height` equals the vertical space
`_render_element` consumes (return y minus entry y), for every metric,
style, width and starting y; for the other block kinds the two disagree
(see the counterexample). -/
theorem estimator_render_consistent_paragraph_hr (measure : Measure)
    (style : StyleConfig) (c : List Char) (y maxW : Nat) :
    renderYAfter measure style (Element.paragraph c) y maxW
        = y + calcHeight measure style (Element.paragraph c) maxW
    ∧ renderYAfter measure style Element.hr y maxW
        = y + calcHeight measure style Element.hr maxW := by
  constructor
  · simp only [renderYAfter, calcHeight, foldl_add_const]
    ring
  · simp [renderYAfter, calcHeight]

/-- C1 counterexample: for an `h1` block of text `a`, the estimator
returns `72` (one line times h1 spacing) but rendering advances y by
`92` (the same line plus the trailing gap of 20 the estimator omits). -/
theorem estimator_render_mismatch_h1 :
    calcHeight measureLen defaultStyle (Element.h1 ['a']) 800 = 72
    ∧ renderYAfter measureLen defaultStyle (Element.h1 ['a']) 0 800 = 92
    ∧ (72 : Nat) ≠ 92 := by
  refine ⟨by decide, by decide, by decide⟩

/-- C2 (amended): for a 50-line code block under the default style,
`_calculate_element_height` returns `50 × 50 + 40 = 2540` (not 2530),
while `_render_element` draws a `50 × 50 + 30 = 2530` block and returns
`y + 2550`, so the rendered block accounts for 2550 pixels. -/
theorem code_block_heights (measure : Measure) (c lang : List Char)
    (y maxW : Nat) (h : (splitNl c).length = 50) :
    calcHeight measure defaultStyle (Element.code c lang) maxW = 2540
    ∧ renderYAfter measure defaultStyle (Element.code c lang) y maxW = y + 2550 := by
  constructor
  · simp [calcHeight, h, defaultStyle]
  · simp [renderYAfter, h, defaultStyle]

/-- Witness for C2 at a concrete 50-line content. -/
theorem code_block_heights_witness :
    (splitNl (List.replicate 49 '\n')).length = 50
    ∧ (calcHeight measureLen defaultStyle
          (Element.code (List.replicate 49 '\n') []) 800 = 2540
      ∧ renderYAfter measureLen defaultStyle
          (Element.code (List.replicate 49 '\n') []) 0 800 = 0 + 2550) :=
  ⟨by decide, code_block_heights measureLen (List.replicate 49 '\n') [] 0 800 (by decide)⟩

/-- C2 counterexample: the estimator value for a 50-line code block is
2540, not the claimed `50 × 50 + 30 = 2530`. -/
theorem code_block_estimate_not_2530 :
    calcHeight measureLen defaultStyle
        (Element.code (List.replicate 49 '\n') []) 800 = 2540
    ∧ (2540 : Nat) ≠ 2530 := by
  constructor
  · decide
  · decide

/-- `promoteNl` passes a leading newline through unchanged. -/
theorem promoteNl_nl_cons (t : List Char) :
    promoteNl ('\n' :: t) = '\n' :: promoteNl t := by
  match t with
  | [] => rfl
  | [c] => rfl
  | c2 :: c3 :: rest => simp [promoteNl]

/-- `promoteNl` leaves a newline run followed by one character alone. -/
theorem promoteNl_repl_nl (b : Char) : ∀ (m : Nat),
    promoteNl (List.replicate m '\n' ++ [b]) = List.replicate m '\n' ++ [b] := by
  intro m
  induction m with
  | zero => rfl
  | succ m ih => simp [List.replicate_succ, promoteNl_nl_cons, ih]

/-- C3 (amended): the substitution doubles a single newline flanked by
non-newline characters, but matches are non-overlapping and scanned
left to right, so in `a\nb\nc` only the first newline is doubled; runs
of two or more newlines are left exactly as they were. -/
theorem promoteNl_spec :
    (∀ a b : Char, a ≠ '\n' → b ≠ '\n' →
      promoteNl [a, '\n', b] = [a, '\n', '\n', b])
    ∧ (∀ a b c : Char, a ≠ '\n' → b ≠ '\n' → c ≠ '\n' →
      promoteNl [a, '\n', b, '\n', c] = [a, '\n', '\n', b, '\n', c])
    ∧ (∀ (n : Nat) (a b : Char), 2 ≤ n → a ≠ '\n' → b ≠ '\n' →
      promoteNl (a :: (List.replicate n '\n' ++ [b]))
        = a :: (List.replicate n '\n' ++ [b])) := by
  refine ⟨?_, ?_, ?_⟩
  · intro a b ha hb
    simp [promoteNl, ha, hb]
  · intro a b c ha hb hc
    simp [promoteNl, ha, hb, hc]
  · intro n a b hn ha hb
    obtain ⟨k, rfl⟩ : ∃ k, n = k + 2 := ⟨n - 2, by omega⟩
    simp [List.replicate_succ, promoteNl, promoteNl_nl_cons, promoteNl_repl_nl]

/-- Witness for C3 at concrete characters. -/
theorem promoteNl_spec_witness :
    promoteNl ['x', '\n', 'y'] = ['x', '\n', '\n', 'y']
    ∧ promoteNl ['a', '\n', 'b', '\n', 'c'] = ['a', '\n', '\n', 'b', '\n', 'c']
    ∧ promoteNl ('a' :: (List.replicate 2 '\n' ++ ['b']))
        = 'a' :: (List.replicate 2 '\n' ++ ['b']) :=
  ⟨promoteNl_spec.1 'x' 'y' (by decide) (by decide),
   promoteNl_spec.2.1 'a' 'b' 'c' (by decide) (by decide) (by decide),
   promoteNl_spec.2.2 2 'a' 'b' (by decide) (by decide) (by decide)⟩

/-- C3 counterexample: in `a\nb\nc` the second single newline is not
doubled (the claim predicts `a\n\nb\n\nc`). -/
theorem promoteNl_not_all_doubled :
    promoteNl (("a\nb\nc").toList) = ("a\n\nb\nc").toList
    ∧ promoteNl (("a\nb\nc").toList) ≠ ("a\n\nb\n\nc").toList := by
  constructor
  · decide
  · decide

/-- C4 (amended): a segment of a formatted kind (bold, italic,
bold-italic, code, highlight — not normal) that does not fit on the
current non-empty line but itself measures at most `max_width` makes
`_wrap_formatted_text` flush the current line and start the next line
with the whole segment unsplit; a normal segment in the same situation
is instead character-split onto the current line. -/
theorem wrapStep_formatted_flush (measure : Measure) (font : Font) (maxW : Nat)
    (st : WrapState) (seg : Seg)
    (hcur : st.cur ≠ [])
    (hfmt : isFormatted seg.type = true)
    (hfits : measure (segFont font seg.type) seg.content ≤ maxW)
    (hover : maxW < st.width + measure (segFont font seg.type) seg.content) :
    wrapStep measure font maxW st seg
      = ⟨st.lines ++ [st.cur], [⟨seg.type, seg.content⟩],
          measure (segFont font seg.type) seg.content⟩ := by
  simp only [wrapStep]
  rw [if_neg (by omega), if_pos ⟨hfmt, hfits⟩, if_neg hcur]

/-- Witness for C4 at a concrete state and bold segment. -/
theorem wrapStep_formatted_flush_witness :
    wrapStep measureTen Font.body 30
        ⟨[], [⟨SegType.normal, ['a', 'b']⟩], 25⟩ ⟨SegType.bold, ['c']⟩
      = ⟨[[⟨SegType.normal, ['a', 'b']⟩]], [⟨SegType.bold, ['c']⟩], 10⟩ :=
  wrapStep_formatted_flush measureTen Font.body 30
    ⟨[], [⟨SegType.normal, ['a', 'b']⟩], 25⟩ ⟨SegType.bold, ['c']⟩
    (by decide) (by decide) (by decide) (by decide)

/-- C4 counterexample: a normal segment that would fit on an empty line
is not moved whole to the next line; it is character-split, the first
character filling the current line. -/
theorem wrap_normal_span_not_flushed :
    wrapFormatted measureTen Font.body 30
        [⟨SegType.normal, ['a', 'b']⟩, ⟨SegType.normal, ['a', 'b', 'c']⟩]
      = [[⟨SegType.normal, ['a', 'b', 'a']⟩], [⟨SegType.normal, ['b', 'c']⟩]]
    ∧ wrapFormatted measureTen Font.body 30
        [⟨SegType.normal, ['a', 'b']⟩, ⟨SegType.normal, ['a', 'b', 'c']⟩]
      ≠ [[⟨SegType.normal, ['a', 'b']⟩], [⟨SegType.normal, ['a', 'b', 'c']⟩]] := by
  constructor
  · decide
  · decide

/-- The merge pass never creates two adjacent normal segments. -/
theorem mergeStep_noAdjNormal (acc : List Seg) (seg : Seg)
    (h : noAdjacentNormal acc) : noAdjacentNormal (mergeStep acc seg) := by
  unfold noAdjacentNormal at h ⊢
  simp only [mergeStep]
  split
  · exact h
  · split
    · rename_i lastSeg hlast
      have hacc : acc.dropLast ++ [lastSeg] = acc :=
        List.dropLast_append_getLast? lastSeg hlast
      split
      · rename_i htypes
        rw [← hacc] at h
        rw [List.chain'_append] at h ⊢
        refine ⟨h.1, List.chain'_singleton _, ?_⟩
        intro x hx y hy
        simp at hy
        subst hy
        have := h.2.2 x hx lastSeg (by simp)
        simp_all
      · rename_i htypes
        rw [List.chain'_append]
        refine ⟨h, List.chain'_singleton _, ?_⟩
        intro x hx y hy
        simp at hy
        subst hy
        rw [hlast] at hx
        simp at hx
        subst hx
        intro hcontra
        exact htypes ⟨hcontra.2, hcontra.1⟩
    · rename_i hlast
      exact List.chain'_singleton _

/-- The merge fold never creates two adjacent normal segments. -/
theorem mergeSegs_noAdjNormal (segs : List Seg) :
    noAdjacentNormal (mergeSegs segs) := by
  unfold mergeSegs
  suffices h : ∀ acc, noAdjacentNormal acc →
      noAdjacentNormal (segs.foldl mergeStep acc) from
    h [] List.chain'_nil
  induction segs with
  | nil => intro acc hacc; exact hacc
  | cons s segs ih =>
    intro acc hacc
    rw [List.foldl_cons]
    exact ih _ (mergeStep_noAdjNormal acc s hacc)

/-- C8 (amended): the tokenizer output never contains two consecutive
normal spans (only adjacent normal segments are merged; adjacent spans
of other kinds may repeat, see the counterexample). -/
theorem parseInline_no_adjacent_normal (text : List Char) :
    noAdjacentNormal (parseInline text) := by
  simp only [parseInline]
  split
  · exact List.chain'_singleton _
  · exact mergeSegs_noAdjNormal _

/-- C8 counterexample: `**a****b**` tokenizes to two consecutive bold
spans, which are not merged. -/
theorem parseInline_adjacent_bold :
    parseInline (("**a****b**").toList)
        = [⟨SegType.bold, ['a']⟩, ⟨SegType.bold, ['b']⟩]
    ∧ ¬ noAdjacentSameKind (parseInline (("**a****b**").toList)) := by
  constructor
  · decide
  · intro hchain
    unfold noAdjacentSameKind at hchain
    have he : parseInline (("**a****b**").toList)
        = [⟨SegType.bold, ['a']⟩, ⟨SegType.bold, ['b']⟩] := by decide
    rw [he, List.chain'_pair] at hchain
    exact hchain rfl

/-- `segsText` distributes over append. -/
theorem segsText_append (a b : List Seg) :
    segsText (a ++ b) = segsText a ++ segsText b := by
  simp [segsText]

/-- `linesText` distributes over append. -/
theorem linesText_append (a b : List (List Seg)) :
    linesText (a ++ b) = linesText a ++ linesText b := by
  simp [linesText]

/-- `appendSeg` adds exactly the given content to the line's text. -/
theorem appendSeg_text (cur : List Seg) (t : SegType) (c : List Char) :
    segsText (appendSeg cur t c) = segsText cur ++ c := by
  simp only [appendSeg]
  split
  · rename_i lastSeg hlast
    have hacc := List.dropLast_append_getLast? lastSeg hlast
    split
    · conv_rhs => rw [← hacc]
      simp [segsText_append, segsText]
    · simp [segsText_append, segsText]
  · rename_i hlast
    have hc : cur = [] := by
      cases cur with
      | nil => rfl
      | cons x xs => simp [List.getLast?_eq_none_iff] at hlast
    subst hc
    simp [segsText]

/-- The character-splitting loop adds exactly the split characters. -/
theorem wrapChars_text (measure : Measure) (sFont : Font) (k : SegType)
    (maxW : Nat) : ∀ (cs : List Char) (st : WrapState),
    stText (wrapChars measure sFont k maxW st cs) = stText st ++ cs := by
  intro cs
  induction cs with
  | nil => intro st; simp [wrapChars]
  | cons ch cs ih =>
    intro st
    simp only [wrapChars]
    split
    · rw [ih]
      simp [stText, appendSeg_text]
    · rw [ih]
      by_cases hcur : st.cur = [] <;>
        simp [stText, hcur, linesText_append, linesText, segsText]

/-- One segment step adds exactly the segment's content. -/
theorem wrapStep_text (measure : Measure) (font : Font) (maxW : Nat)
    (st : WrapState) (seg : Seg) :
    stText (wrapStep measure font maxW st seg) = stText st ++ seg.content := by
  simp only [wrapStep]
  split
  · simp [stText, appendSeg_text]
  · split
    · by_cases hcur : st.cur = [] <;>
        simp [stText, hcur, linesText_append, linesText, segsText]
    · exact wrapChars_text measure _ seg.type maxW seg.content st

/-- C5: `_wrap_formatted_text` conserves text — concatenating the
contents of all spans of all produced lines, in order, is exactly the
concatenation of the input segments' contents, for every metric, font
and width. -/
theorem wrap_conservation (measure : Measure) (font : Font) (maxW : Nat)
    (segs : List Seg) :
    linesText (wrapFormatted measure font maxW segs) = segsText segs := by
  have hfold : ∀ (l : List Seg) (st : WrapState),
      stText (l.foldl (wrapStep measure font maxW) st) = stText st ++ segsText l := by
    intro l
    induction l with
    | nil => intro st; simp [segsText]
    | cons s l ih =>
      intro st
      rw [List.foldl_cons, ih, wrapStep_text]
      simp [segsText, List.append_assoc]
  simp only [wrapFormatted]
  set st := segs.foldl (wrapStep measure font maxW) ⟨[], [], 0⟩ with hst
  have h : linesText st.lines ++ segsText st.cur = segsText segs := by
    simpa [stText, linesText, segsText] using hfold segs ⟨[], [], 0⟩
  by_cases hcur : st.cur = []
  · rw [hcur] at h
    simp only [segsText, List.map_nil, List.flatten_nil, List.append_nil] at h
    by_cases hl : st.lines = []
    · rw [hl] at h
      simp only [linesText, List.map_nil, List.flatten_nil] at h
      have h2 := h.symm
      rw [List.flatten_eq_nil_iff] at h2
      simp [hcur, hl, linesText, segsText]
      intro a ha
      exact h2 (a.content) (List.mem_map_of_mem Seg.content ha)
    · simp [hcur, hl]
      exact h
  · have hne : st.lines ++ [st.cur] ≠ [] := by simp
    simp [hcur, hne, linesText_append, linesText, segsText] at h ⊢
    simpa [segsText] using h

/-- `lineWidth` distributes over append. -/
theorem lineWidth_append (measure : Measure) (font : Font) (a b : List Seg) :
    lineWidth measure font (a ++ b)
      = lineWidth measure font a + lineWidth measure font b := by
  simp [lineWidth]

/-- A line within the width bound satisfies the line invariant. -/
theorem lineFits_of_le (measure : Measure) (font : Font) (maxW : Nat)
    (line : List Seg) (h : lineWidth measure font line ≤ maxW) :
    lineFits measure font maxW line = true := by
  simp [lineFits, h]

/-- For additive metrics, `appendSeg` adds exactly the measured width of
the appended content. -/
theorem appendSeg_width (measure : Measure) (font : Font)
    (hadd : ∀ f a b, measure f (a ++ b) = measure f a + measure f b)
    (cur : List Seg) (t : SegType) (c : List Char) :
    lineWidth measure font (appendSeg cur t c)
      = lineWidth measure font cur + measure (segFont font t) c := by
  simp only [appendSeg]
  split
  · rename_i lastSeg hlast
    have hacc := List.dropLast_append_getLast? lastSeg hlast
    split
    · rename_i hty
      conv_rhs => rw [← hacc]
      simp [lineWidth_append, lineWidth, hadd, hty]
      ring
    · simp [lineWidth_append, lineWidth]
  · rename_i hlast
    have hc : cur = [] := by
      cases cur with
      | nil => rfl
      | cons x xs => simp [List.getLast?_eq_none_iff] at hlast
    subst hc
    simp [lineWidth]

/-- The character loop preserves the width invariants (additive
metrics): sealed lines satisfy the line invariant, and the running
width is the current line's measured width. -/
theorem wrapChars_fits (measure : Measure) (font : Font) (maxW : Nat)
    (k : SegType)
    (hadd : ∀ f a b, measure f (a ++ b) = measure f a + measure f b) :
    ∀ (cs : List Char) (st : WrapState),
    st.lines.all (lineFits measure font maxW) = true →
    lineWidth measure font st.cur = st.width →
    lineFits measure font maxW st.cur = true →
    ((wrapChars measure (segFont font k) k maxW st cs).lines.all
        (lineFits measure font maxW) = true
      ∧ lineWidth measure font (wrapChars measure (segFont font k) k maxW st cs).cur
          = (wrapChars measure (segFont font k) k maxW st cs).width
      ∧ lineFits measure font maxW
          (wrapChars measure (segFont font k) k maxW st cs).cur = true) := by
  intro cs
  induction cs with
  | nil => intro st h1 h2 h3; exact ⟨h1, h2, h3⟩
  | cons ch cs ih =>
    intro st h1 h2 h3
    simp only [wrapChars]
    split
    · rename_i hle
      apply ih
      · exact h1
      · rw [appendSeg_width measure font hadd, h2]
      · apply lineFits_of_le
        rw [appendSeg_width measure font hadd, h2]
        exact hle
    · rename_i hgt
      apply ih
      · by_cases hcur : st.cur = []
        · simpa [hcur] using h1
        · simp [hcur, List.all_append, h1, h3]
      · simp [lineWidth]
      · by_cases hle2 : measure (segFont font k) [ch] ≤ maxW
        · apply lineFits_of_le
          simpa [lineWidth] using hle2
        · have hover : maxW < measure (segFont font k) [ch] := by omega
          simp [lineFits, lineWidth, hover]

/-- One segment step preserves the width invariants (additive
metrics). -/
theorem wrapStep_fits (measure : Measure) (font : Font) (maxW : Nat)
    (hadd : ∀ f a b, measure f (a ++ b) = measure f a + measure f b)
    (st : WrapState) (seg : Seg)
    (h1 : st.lines.all (lineFits measure font maxW) = true)
    (h2 : lineWidth measure font st.cur = st.width)
    (h3 : lineFits measure font maxW st.cur = true) :
    ((wrapStep measure font maxW st seg).lines.all
        (lineFits measure font maxW) = true
      ∧ lineWidth measure font (wrapStep measure font maxW st seg).cur
          = (wrapStep measure font maxW st seg).width
      ∧ lineFits measure font maxW (wrapStep measure font maxW st seg).cur = true) := by
  simp only [wrapStep]
  split
  · rename_i hle
    refine ⟨h1, ?_, ?_⟩
    · rw [appendSeg_width measure font hadd, h2]
    · apply lineFits_of_le
      rw [appendSeg_width measure font hadd, h2]
      exact hle
  · split
    · rename_i hcond
      refine ⟨?_, ?_, ?_⟩
      · by_cases hcur : st.cur = []
        · simpa [hcur] using h1
        · simp [hcur, List.all_append, h1, h3]
      · simp [lineWidth]
      · apply lineFits_of_le
        simpa [lineWidth] using hcond.2
    · exact wrapChars_fits measure font maxW seg.type hadd seg.content st h1 h2 h3

/-- C6 (amended): for metrics additive under concatenation (as the
claim's running-width bookkeeping presupposes), every line produced by
`_wrap_formatted_text` has measured span widths summing to at most
`max_width`, except a line that is a single one-character segment wider
than `max_width` by itself; for non-additive metrics the bound can fail
on a merged span (see the counterexample). -/
theorem wrap_width_bound_additive (measure : Measure)
    (hadd : ∀ f a b, measure f (a ++ b) = measure f a + measure f b)
    (font : Font) (maxW : Nat) (segs : List Seg) :
    (wrapFormatted measure font maxW segs).all
      (lineFits measure font maxW) = true := by
  have hfold : ∀ (l : List Seg) (st : WrapState),
      st.lines.all (lineFits measure font maxW) = true →
      lineWidth measure font st.cur = st.width →
      lineFits measure font maxW st.cur = true →
      ((l.foldl (wrapStep measure font maxW) st).lines.all
          (lineFits measure font maxW) = true
        ∧ lineWidth measure font (l.foldl (wrapStep measure font maxW) st).cur
            = (l.foldl (wrapStep measure font maxW) st).width
        ∧ lineFits measure font maxW
            (l.foldl (wrapStep measure font maxW) st).cur = true) := by
    intro l
    induction l with
    | nil => intro st h1 h2 h3; exact ⟨h1, h2, h3⟩
    | cons s l ih =>
      intro st h1 h2 h3
      rw [List.foldl_cons]
      obtain ⟨g1, g2, g3⟩ := wrapStep_fits measure font maxW hadd st s h1 h2 h3
      exact ih _ g1 g2 g3
  simp only [wrapFormatted]
  set st := segs.foldl (wrapStep measure font maxW) ⟨[], [], 0⟩ with hst
  obtain ⟨ha, hw, hf⟩ := hfold segs ⟨[], [], 0⟩ (by simp)
    (by simp [lineWidth]) (lineFits_of_le measure font maxW [] (by simp [lineWidth]))
  by_cases hcur : st.cur = []
  · by_cases hl : st.lines = []
    · simp only [hcur, hl, if_pos rfl]
      simp [lineFits_of_le measure font maxW [] (by simp [lineWidth])]
    · simp [hcur, hl, ha]
  · have hne : st.lines ++ [st.cur] ≠ [] := by simp
    simp [hcur, hne, List.all_append, ha, hf]

/-- Witness for C6 with the one-pixel-per-character metrics. -/
theorem wrap_width_bound_additive_witness :
    (wrapFormatted measureLen Font.body 2
        [⟨SegType.normal, ['a', 'b', 'c']⟩]).all
      (lineFits measureLen Font.body 2) = true :=
  wrap_width_bound_additive measureLen (fun _ a b => List.length_append a b)
    Font.body 2 [⟨SegType.normal, ['a', 'b', 'c']⟩]

/-- C6 counterexample: under a non-additive metric, two one-character
normal segments are merged into one span whose own measured width
exceeds `max_width`, and the resulting line is not a single
one-character token. -/
theorem wrap_width_bound_fails_nonadditive :
    wrapFormatted measureJump Font.body 12
        [⟨SegType.normal, ['a']⟩, ⟨SegType.normal, ['b']⟩]
      = [[⟨SegType.normal, ['a', 'b']⟩]]
    ∧ lineFits measureJump Font.body 12 [⟨SegType.normal, ['a', 'b']⟩] = false := by
  constructor
  · decide
  · decide

/-- A prefix whose head differs is no prefix. -/
theorem isPrefixOf_cons_false {p c : Char} (pr t : List Char) (h : p ≠ c) :
    (p :: pr).isPrefixOf (c :: t) = false := by
  rw [List.isPrefixOf_cons₂]
  simp [h]

/-- `scanSegs` on the empty text. -/
theorem scanSegs_nil (fuel : Nat) : scanSegs fuel [] = [] := by
  cases fuel <;> rfl

/-- The `***` branch consumes at least one character. -/
theorem tryStar3_length {t : List Char} {k : SegType} {c r : List Char}
    (h : tryStar3 t = some (k, c, r)) : r.length < t.length := by
  simp only [tryStar3] at h
  split at h
  · rename_i hg
    obtain ⟨h6, hp⟩ := hg
    split at h
    · rename_i j hj
      simp only [Option.some.injEq, Prod.mk.injEq] at h
      obtain ⟨hk, hc, hr⟩ := h
      subst hr
      simp only [List.length_drop]
      omega
    · simp at h
  · simp at h

/-- The `**` branch consumes at least one character. -/
theorem tryStar2_length {t : List Char} {k : SegType} {c r : List Char}
    (h : tryStar2 t = some (k, c, r)) : r.length < t.length := by
  simp only [tryStar2] at h
  split at h
  · rename_i hg
    obtain ⟨h4, hp⟩ := hg
    split at h
    · rename_i j hj
      simp only [Option.some.injEq, Prod.mk.injEq] at h
      obtain ⟨hk, hc, hr⟩ := h
      subst hr
      simp only [List.length_drop]
      omega
    · simp at h
  · simp at h

/-- The `*` branch consumes at least one character. -/
theorem tryStar1_length {t : List Char} {k : SegType} {c r : List Char}
    (h : tryStar1 t = some (k, c, r)) : r.length < t.length := by
  simp only [tryStar1] at h
  split at h
  · rename_i hg
    obtain ⟨h2, hh, hp⟩ := hg
    split at h
    · rename_i j hj
      split at h
      · simp at h
      · simp only [Option.some.injEq, Prod.mk.injEq] at h
        obtain ⟨hk, hc, hr⟩ := h
        subst hr
        simp only [List.length_drop, List.length_tail]
        omega
    · simp at h
  · simp at h

/-- The backtick branch consumes at least one character. -/
theorem tryTick_length {t : List Char} {k : SegType} {c r : List Char}
    (h : tryTick t = some (k, c, r)) : r.length < t.length := by
  simp only [tryTick] at h
  split at h
  · rename_i hg
    have hne : t ≠ [] := by
      intro e; rw [e] at hg; simp at hg
    have h1 : 1 ≤ t.length := by
      cases t with
      | nil => exact absurd rfl hne
      | cons x xs => simp
    split at h
    · rename_i j hj
      simp only [Option.some.injEq, Prod.mk.injEq] at h
      obtain ⟨hk, hc, hr⟩ := h
      subst hr
      simp only [List.length_drop, List.length_tail]
      omega
    · simp at h
  · simp at h

/-- The `==` branch consumes at least one character. -/
theorem tryEq_length {t : List Char} {k : SegType} {c r : List Char}
    (h : tryEq t = some (k, c, r)) : r.length < t.length := by
  simp only [tryEq] at h
  split at h
  · rename_i hg
    obtain ⟨h4, hp⟩ := hg
    split at h
    · rename_i j hj
      simp only [Option.some.injEq, Prod.mk.injEq] at h
      obtain ⟨hk, hc, hr⟩ := h
      subst hr
      simp only [List.length_drop]
      omega
    · simp at h
  · simp at h

/-- The `__` branch consumes at least one character. -/
theorem tryUnder2_length {t : List Char} {k : SegType} {c r : List Char}
    (h : tryUnder2 t = some (k, c, r)) : r.length < t.length := by
  simp only [tryUnder2] at h
  split at h
  · rename_i hg
    obtain ⟨h4, hp⟩ := hg
    split at h
    · rename_i j hj
      simp only [Option.some.injEq, Prod.mk.injEq] at h
      obtain ⟨hk, hc, hr⟩ := h
      subst hr
      simp only [List.length_drop]
      omega
    · simp at h
  · simp at h

/-- The `_` branch consumes at least one character. -/
theorem tryUnder1_length {t : List Char} {k : SegType} {c r : List Char}
    (h : tryUnder1 t = some (k, c, r)) : r.length < t.length := by
  simp only [tryUnder1] at h
  split at h
  · rename_i hg
    obtain ⟨hh, hp⟩ := hg
    have hne : t ≠ [] := by
      intro e; rw [e] at hh; simp at hh
    have h1 : 1 ≤ t.length := by
      cases t with
      | nil => exact absurd rfl hne
      | cons x xs => simp
    split at h
    · rename_i j hj
      split at h
      · simp at h
      · simp only [Option.some.injEq, Prod.mk.injEq] at h
        obtain ⟨hk, hc, hr⟩ := h
        subst hr
        simp only [List.length_drop, List.length_tail]
        omega
    · simp at h
  · simp at h

/-- A successful delimiter attempt consumes at least one character. -/
theorem attempt_length {t : List Char} {k : SegType} {c r : List Char}
    (h : attempt t = some (k, c, r)) : r.length < t.length := by
  simp only [attempt] at h
  split at h
  · rename_i h3
    cases h; exact tryStar3_length h3
  · split at h
    · rename_i h2
      cases h; exact tryStar2_length h2
    · split at h
      · rename_i h1
        cases h; exact tryStar1_length h1
      · split at h
        · rename_i ht
          cases h; exact tryTick_length ht
        · split at h
          · rename_i he
            cases h; exact tryEq_length he
          · split at h
            · rename_i hu
              cases h; exact tryUnder2_length hu
            · exact tryUnder1_length h

/-- `scanSegs` does not depend on the fuel once it covers the text
length. -/
theorem scanSegs_congr : ∀ (n : Nat) (t : List Char) (f₁ f₂ : Nat),
    t.length ≤ n → t.length ≤ f₁ → t.length ≤ f₂ →
    scanSegs f₁ t = scanSegs f₂ t := by
  intro n
  induction n with
  | zero =>
    intro t f₁ f₂ h0 h1 h2
    have he : t = [] := by cases t <;> simp_all
    subst he
    rw [scanSegs_nil, scanSegs_nil]
  | succ n ih =>
    intro t f₁ f₂ h0 h1 h2
    cases t with
    | nil => rw [scanSegs_nil, scanSegs_nil]
    | cons c t' =>
      simp only [List.length_cons] at h0 h1 h2
      obtain ⟨g₁, rfl⟩ : ∃ g, f₁ = g + 1 := ⟨f₁ - 1, by omega⟩
      obtain ⟨g₂, rfl⟩ : ∃ g, f₂ = g + 1 := ⟨f₂ - 1, by omega⟩
      simp only [scanSegs]
      cases hat : attempt (c :: t') with
      | some res =>
        obtain ⟨k, cont, rest⟩ := res
        have hlen := attempt_length hat
        simp only [List.length_cons] at hlen
        dsimp only
        congr 1
        exact ih rest g₁ g₂ (by omega) (by omega) (by omega)
      | none =>
        cases hsp : findIdxSp t' with
        | none => rfl
        | some j =>
          have hdl : (t'.drop j).length ≤ t'.length := by
            simp only [List.length_drop]; omega
          dsimp only
          congr 1
          exact ih (t'.drop j) g₁ g₂ (by omega) (by omega) (by omega)

/-- Unfolding `scan` when a delimiter branch matches. -/
theorem scan_cons_attempt {c : Char} {t' : List Char} {k : SegType}
    {cont rest : List Char}
    (h : attempt (c :: t') = some (k, cont, rest)) :
    scan (c :: t')
      = (if cont = [] then [] else [⟨k, cont⟩]) ++ scan rest := by
  have hlen := attempt_length h
  simp only [List.length_cons] at hlen
  unfold scan
  show scanSegs (t'.length + 1) (c :: t') = _
  simp only [scanSegs, h]
  congr 1
  exact scanSegs_congr rest.length rest t'.length rest.length
    (le_refl _) (by omega) (le_refl _)

/-- Unfolding `scan` in the normal-text branch. -/
theorem scan_cons_normal {c : Char} {t' : List Char}
    (h : attempt (c :: t') = none) :
    scan (c :: t') = (match findIdxSp t' with
      | none => [⟨SegType.normal, c :: t'⟩]
      | some j => ⟨SegType.normal, c :: t'.take j⟩ :: scan (t'.drop j)) := by
  unfold scan
  show scanSegs (t'.length + 1) (c :: t') = _
  simp only [scanSegs, h]
  cases hsp : findIdxSp t' with
  | none => rfl
  | some j =>
    have hdl : (t'.drop j).length ≤ t'.length := by
      simp only [List.length_drop]; omega
    simp only []
    congr 1
    exact scanSegs_congr (t'.drop j).length (t'.drop j) t'.length
      (t'.drop j).length (le_refl _) (by omega) (le_refl _)

/-- A non-empty prefix is found at position 0. -/
theorem findSub_here (pat rest : List Char) (hne : pat ≠ [])
    (hp : pat.isPrefixOf rest = true) : findSub pat rest = some 0 := by
  cases rest with
  | nil =>
    cases pat with
    | nil => exact absurd rfl hne
    | cons p pr => simp at hp
  | cons c t => simp [findSub, hp]

/-- Searching a pattern with a delimiter head skips a run of
non-delimiter characters. -/
theorem findSub_skip (p : Char) (pr : List Char) (hp : isSpecial p = true) :
    ∀ (s rest : List Char) (j : Nat),
    (∀ ch ∈ s, isSpecial ch = false) →
    findSub (p :: pr) rest = some j →
    findSub (p :: pr) (s ++ rest) = some (s.length + j) := by
  intro s
  induction s with
  | nil => intro rest j hs h; simpa using h
  | cons ch s ih =>
    intro rest j hs h
    have hch : isSpecial ch = false := hs ch (by simp)
    have hne : p ≠ ch := by
      intro e; rw [← e] at hch; rw [hp] at hch; cases hch
    rw [List.cons_append]
    rw [show findSub (p :: pr) (ch :: (s ++ rest))
        = if (p :: pr).isPrefixOf (ch :: (s ++ rest)) then some 0
          else (findSub (p :: pr) (s ++ rest)).map (· + 1) from rfl]
    rw [if_neg (by rw [isPrefixOf_cons_false _ _ hne]; simp)]
    rw [ih rest j (fun x hx => hs x (by simp [hx])) h]
    simp only [Option.map_some', Option.some.injEq]
    simp only [List.length_cons]
    omega

/-- No delimiter character occurs in a non-delimiter run. -/
theorem findIdxSp_none (s : List Char)
    (hs : ∀ c ∈ s, isSpecial c = false) : findIdxSp s = none := by
  induction s with
  | nil => rfl
  | cons c t ih =>
    simp [findIdxSp, hs c (by simp), ih (fun x hx => hs x (by simp [hx]))]

/-- The first delimiter character after a non-delimiter run is right
behind it. -/
theorem findIdxSp_append (s : List Char) (d : Char) (r : List Char)
    (hs : ∀ c ∈ s, isSpecial c = false) (hd : isSpecial d = true) :
    findIdxSp (s ++ d :: r) = some s.length := by
  induction s with
  | nil => simp [findIdxSp, hd]
  | cons c t ih =>
    simp [findIdxSp, hs c (by simp), ih (fun x hx => hs x (by simp [hx]))]

/-- A two-character pattern whose second character differs is no
prefix. -/
theorem isPrefixOf2_false_second {p q c d : Char} (t : List Char) (h : q ≠ d) :
    ([p, q]).isPrefixOf (c :: d :: t) = false := by
  rw [List.isPrefixOf_cons₂, List.isPrefixOf_cons₂]
  simp [h]

/-- A three-character pattern whose second character differs is no
prefix. -/
theorem isPrefixOf3_false_second {p q u c d : Char} (t : List Char) (h : q ≠ d) :
    ([p, q, u]).isPrefixOf (c :: d :: t) = false := by
  rw [List.isPrefixOf_cons₂, List.isPrefixOf_cons₂]
  simp [h]

/-- A three-character pattern whose third character differs is no
prefix. -/
theorem isPrefixOf3_false_third {p q u c d e : Char} (t : List Char) (h : u ≠ e) :
    ([p, q, u]).isPrefixOf (c :: d :: e :: t) = false := by
  rw [List.isPrefixOf_cons₂, List.isPrefixOf_cons₂, List.isPrefixOf_cons₂]
  simp [h]

/-- A plain run is non-empty and free of delimiter characters. -/
theorem plainOk_dest {s : List Char} (hs : plainOk s = true) :
    s ≠ [] ∧ ∀ ch ∈ s, isSpecial ch = false := by
  simp only [plainOk, Bool.and_eq_true, Bool.not_eq_true', List.all_eq_true] at hs
  exact ⟨by simpa using hs.1, hs.2⟩

/-- The names of the four delimiter characters differ from any
non-delimiter character. -/
theorem isSpecial_false_ne {c : Char} (h : isSpecial c = false) :
    c ≠ '*' ∧ c ≠ '`' ∧ c ≠ '_' ∧ c ≠ '=' := by
  simp only [isSpecial, Bool.or_eq_false_iff, decide_eq_false_iff_not] at h
  exact ⟨h.1.1.1, h.1.1.2, h.1.2, h.2⟩

/-- A `**` closer followed by a non-delimiter character (or nothing) is
not the start of a `**` run beyond the closer itself. -/
theorem star2_not_prefix_closer {r : List Char} (hr : headNotSpecial r = true) :
    star2.isPrefixOf ('*' :: r) = false := by
  cases r with
  | nil => decide
  | cons c r' =>
    simp only [headNotSpecial, Bool.not_eq_true'] at hr
    have hc : c ≠ '*' := (isSpecial_false_ne hr).1
    simp only [star2]
    exact isPrefixOf2_false_second r' (Ne.symm hc)

/-- Same fact for `__`. -/
theorem under2_not_prefix_closer {r : List Char} (hr : headNotSpecial r = true) :
    under2.isPrefixOf ('_' :: r) = false := by
  cases r with
  | nil => decide
  | cons c r' =>
    simp only [headNotSpecial, Bool.not_eq_true'] at hr
    have hc : c ≠ '_' := (isSpecial_false_ne hr).2.2.1
    simp only [under2]
    exact isPrefixOf2_false_second r' (Ne.symm hc)

/-- The `***` branch on a well-separated `***…***` run. -/
theorem tryStar3_delim (s r : List Char)
    (hs : ∀ ch ∈ s, isSpecial ch = false) :
    tryStar3 ('*' :: '*' :: '*' :: (s ++ '*' :: '*' :: '*' :: r))
      = some (SegType.bold_italic, s, r) := by
  have hfind : findSub ['*', '*', '*'] (s ++ '*' :: '*' :: '*' :: r)
      = some (s.length + 0) :=
    findSub_skip '*' ['*', '*'] (by decide) s ('*' :: '*' :: '*' :: r) 0 hs
      (findSub_here _ _ (by simp) (by simp [List.isPrefixOf]))
  simp only [tryStar3, star3]
  rw [if_pos ⟨by simp [List.length_cons, List.length_append]; omega,
      by simp [List.isPrefixOf]⟩]
  rw [show List.drop 3 ('*' :: '*' :: '*' :: (s ++ '*' :: '*' :: '*' :: r))
      = s ++ '*' :: '*' :: '*' :: r from rfl]
  rw [hfind]
  simp only [Nat.add_zero, Option.some.injEq, Prod.mk.injEq]
  refine ⟨trivial, List.take_left s _, (List.drop_append 3).trans rfl⟩

/-- The `**` branch on a well-separated `**…**` run. -/
theorem tryStar2_delim (s r : List Char)
    (hs : ∀ ch ∈ s, isSpecial ch = false) :
    tryStar2 ('*' :: '*' :: (s ++ '*' :: '*' :: r))
      = some (SegType.bold, s, r) := by
  have hfind : findSub ['*', '*'] (s ++ '*' :: '*' :: r)
      = some (s.length + 0) :=
    findSub_skip '*' ['*'] (by decide) s ('*' :: '*' :: r) 0 hs
      (findSub_here _ _ (by simp) (by simp [List.isPrefixOf]))
  simp only [tryStar2, star2]
  rw [if_pos ⟨by simp [List.length_cons, List.length_append]; omega,
      by simp [List.isPrefixOf]⟩]
  rw [show List.drop 2 ('*' :: '*' :: (s ++ '*' :: '*' :: r))
      = s ++ '*' :: '*' :: r from rfl]
  rw [hfind]
  simp only [Nat.add_zero, Option.some.injEq, Prod.mk.injEq]
  refine ⟨trivial, List.take_left s _, (List.drop_append 2).trans rfl⟩

/-- The `==` branch on a well-separated `==…==` run. -/
theorem tryEq_delim (s r : List Char)
    (hs : ∀ ch ∈ s, isSpecial ch = false) :
    tryEq ('=' :: '=' :: (s ++ '=' :: '=' :: r))
      = some (SegType.highlight, s, r) := by
  have hfind : findSub ['=', '='] (s ++ '=' :: '=' :: r)
      = some (s.length + 0) :=
    findSub_skip '=' ['='] (by decide) s ('=' :: '=' :: r) 0 hs
      (findSub_here _ _ (by simp) (by simp [List.isPrefixOf]))
  simp only [tryEq, eq2c]
  rw [if_pos ⟨by simp [List.length_cons, List.length_append]; omega,
      by simp [List.isPrefixOf]⟩]
  rw [show List.drop 2 ('=' :: '=' :: (s ++ '=' :: '=' :: r))
      = s ++ '=' :: '=' :: r from rfl]
  rw [hfind]
  simp only [Nat.add_zero, Option.some.injEq, Prod.mk.injEq]
  refine ⟨trivial, List.take_left s _, (List.drop_append 2).trans rfl⟩

/-- The `__` branch on a well-separated `__…__` run. -/
theorem tryUnder2_delim (s r : List Char)
    (hs : ∀ ch ∈ s, isSpecial ch = false) :
    tryUnder2 ('_' :: '_' :: (s ++ '_' :: '_' :: r))
      = some (SegType.bold, s, r) := by
  have hfind : findSub ['_', '_'] (s ++ '_' :: '_' :: r)
      = some (s.length + 0) :=
    findSub_skip '_' ['_'] (by decide) s ('_' :: '_' :: r) 0 hs
      (findSub_here _ _ (by simp) (by simp [List.isPrefixOf]))
  simp only [tryUnder2, under2]
  rw [if_pos ⟨by simp [List.length_cons, List.length_append]; omega,
      by simp [List.isPrefixOf]⟩]
  rw [show List.drop 2 ('_' :: '_' :: (s ++ '_' :: '_' :: r))
      = s ++ '_' :: '_' :: r from rfl]
  rw [hfind]
  simp only [Nat.add_zero, Option.some.injEq, Prod.mk.injEq]
  refine ⟨trivial, List.take_left s _, (List.drop_append 2).trans rfl⟩

/-- The backtick branch on a well-separated `` `…` `` run. -/
theorem tryTick_delim (s r : List Char)
    (hs : ∀ ch ∈ s, isSpecial ch = false) :
    tryTick ('`' :: (s ++ '`' :: r)) = some (SegType.code, s, r) := by
  have hfind : findSub ['`'] (s ++ '`' :: r) = some (s.length + 0) :=
    findSub_skip '`' [] (by decide) s ('`' :: r) 0 hs
      (findSub_here _ _ (by simp) (by simp [List.isPrefixOf]))
  simp only [tryTick]
  rw [if_pos (show ('`' :: (s ++ '`' :: r)).head? = some '`' from rfl)]
  rw [show List.tail ('`' :: (s ++ '`' :: r)) = s ++ '`' :: r from rfl]
  rw [hfind]
  simp only [Nat.add_zero, Option.some.injEq, Prod.mk.injEq]
  refine ⟨trivial, List.take_left s _, (List.drop_append 1).trans rfl⟩

/-- The `*` branch on a well-separated `*…*` run whose closer is not
followed by a delimiter character. -/
theorem tryStar1_delim (s r : List Char)
    (hs : ∀ ch ∈ s, isSpecial ch = false) (hne : s ≠ [])
    (hr : headNotSpecial r = true) :
    tryStar1 ('*' :: (s ++ '*' :: r)) = some (SegType.italic, s, r) := by
  obtain ⟨c₀, s₀, rfl⟩ : ∃ c₀ s₀, s = c₀ :: s₀ := by
    cases s with
    | nil => exact absurd rfl hne
    | cons a b => exact ⟨a, b, rfl⟩
  have hc₀ : c₀ ≠ '*' := (isSpecial_false_ne (hs c₀ (by simp))).1
  have hfind : findSub ['*'] ((c₀ :: s₀) ++ '*' :: r) = some ((c₀ :: s₀).length + 0) :=
    findSub_skip '*' [] (by decide) (c₀ :: s₀) ('*' :: r) 0 hs
      (findSub_here _ _ (by simp) (by simp [List.isPrefixOf]))
  have hcond : 2 ≤ ('*' :: ((c₀ :: s₀) ++ '*' :: r)).length
      ∧ ('*' :: ((c₀ :: s₀) ++ '*' :: r)).head? = some '*'
      ∧ ¬ star2.isPrefixOf ('*' :: ((c₀ :: s₀) ++ '*' :: r)) = true := by
    refine ⟨by simp, rfl, ?_⟩
    rw [show ('*' :: ((c₀ :: s₀) ++ '*' :: r))
        = '*' :: c₀ :: (s₀ ++ '*' :: r) from by simp]
    rw [star2, isPrefixOf2_false_second _ (Ne.symm hc₀)]
    simp
  simp only [tryStar1]
  rw [if_pos hcond]
  rw [show List.tail ('*' :: ((c₀ :: s₀) ++ '*' :: r)) = (c₀ :: s₀) ++ '*' :: r from rfl]
  rw [hfind]
  dsimp only
  have hdrop : List.drop ((c₀ :: s₀).length + 0) ((c₀ :: s₀) ++ '*' :: r) = '*' :: r := by
    rw [Nat.add_zero]; exact List.drop_left _ _
  rw [hdrop, star2_not_prefix_closer hr]
  rw [if_neg (by simp)]
  simp only [Nat.add_zero, Option.some.injEq, Prod.mk.injEq]
  refine ⟨trivial, List.take_left _ _, (List.drop_append 1).trans rfl⟩

/-- The `_` branch on a well-separated `_…_` run whose closer is not
followed by a delimiter character. -/
theorem tryUnder1_delim (s r : List Char)
    (hs : ∀ ch ∈ s, isSpecial ch = false) (hne : s ≠ [])
    (hr : headNotSpecial r = true) :
    tryUnder1 ('_' :: (s ++ '_' :: r)) = some (SegType.italic, s, r) := by
  obtain ⟨c₀, s₀, rfl⟩ : ∃ c₀ s₀, s = c₀ :: s₀ := by
    cases s with
    | nil => exact absurd rfl hne
    | cons a b => exact ⟨a, b, rfl⟩
  have hc₀ : c₀ ≠ '_' := (isSpecial_false_ne (hs c₀ (by simp))).2.2.1
  have hfind : findSub ['_'] ((c₀ :: s₀) ++ '_' :: r) = some ((c₀ :: s₀).length + 0) :=
    findSub_skip '_' [] (by decide) (c₀ :: s₀) ('_' :: r) 0 hs
      (findSub_here _ _ (by simp) (by simp [List.isPrefixOf]))
  have hcond : ('_' :: ((c₀ :: s₀) ++ '_' :: r)).head? = some '_'
      ∧ ¬ under2.isPrefixOf ('_' :: ((c₀ :: s₀) ++ '_' :: r)) = true := by
    refine ⟨rfl, ?_⟩
    rw [show ('_' :: ((c₀ :: s₀) ++ '_' :: r))
        = '_' :: c₀ :: (s₀ ++ '_' :: r) from by simp]
    rw [under2, isPrefixOf2_false_second _ (Ne.symm hc₀)]
    simp
  simp only [tryUnder1]
  rw [if_pos hcond]
  rw [show List.tail ('_' :: ((c₀ :: s₀) ++ '_' :: r)) = (c₀ :: s₀) ++ '_' :: r from rfl]
  rw [hfind]
  dsimp only
  have hdrop : List.drop ((c₀ :: s₀).length + 0) ((c₀ :: s₀) ++ '_' :: r) = '_' :: r := by
    rw [Nat.add_zero]; exact List.drop_left _ _
  rw [hdrop, under2_not_prefix_closer hr]
  rw [if_neg (by simp)]
  simp only [Nat.add_zero, Option.some.injEq, Prod.mk.injEq]
  refine ⟨trivial, List.take_left _ _, (List.drop_append 1).trans rfl⟩

/-- The `***` branch fails without an opening `***`. -/
theorem tryStar3_none {t : List Char} (h : star3.isPrefixOf t = false) :
    tryStar3 t = none := by
  simp [tryStar3, h]

/-- The `**` branch fails without an opening `**`. -/
theorem tryStar2_none {t : List Char} (h : star2.isPrefixOf t = false) :
    tryStar2 t = none := by
  simp [tryStar2, h]

/-- The `*` branch fails unless the text starts with `*`. -/
theorem tryStar1_none {t : List Char} (h : t.head? ≠ some '*') :
    tryStar1 t = none := by
  simp [tryStar1, h]

/-- The backtick branch fails unless the text starts with a backtick. -/
theorem tryTick_none {t : List Char} (h : t.head? ≠ some '`') :
    tryTick t = none := by
  simp [tryTick, h]

/-- The `==` branch fails without an opening `==`. -/
theorem tryEq_none {t : List Char} (h : eq2c.isPrefixOf t = false) :
    tryEq t = none := by
  simp [tryEq, h]

/-- The `__` branch fails without an opening `__`. -/
theorem tryUnder2_none {t : List Char} (h : under2.isPrefixOf t = false) :
    tryUnder2 t = none := by
  simp [tryUnder2, h]

/-- The `_` branch fails unless the text starts with `_`. -/
theorem tryUnder1_none {t : List Char} (h : t.head? ≠ some '_') :
    tryUnder1 t = none := by
  simp [tryUnder1, h]

/-- No delimiter branch matches at a non-delimiter character. -/
theorem attempt_nonspecial {c : Char} (t : List Char)
    (hc : isSpecial c = false) : attempt (c :: t) = none := by
  obtain ⟨h1, h2, h3, h4⟩ := isSpecial_false_ne hc
  have n3 : tryStar3 (c :: t) = none := by
    apply tryStar3_none
    simp only [star3]
    exact isPrefixOf_cons_false _ _ (Ne.symm h1)
  have n2 : tryStar2 (c :: t) = none := by
    apply tryStar2_none
    simp only [star2]
    exact isPrefixOf_cons_false _ _ (Ne.symm h1)
  have n1 : tryStar1 (c :: t) = none := by
    apply tryStar1_none
    simp [h1]
  have nt : tryTick (c :: t) = none := by
    apply tryTick_none
    simp [h2]
  have ne' : tryEq (c :: t) = none := by
    apply tryEq_none
    simp only [eq2c]
    exact isPrefixOf_cons_false _ _ (Ne.symm h4)
  have nu2 : tryUnder2 (c :: t) = none := by
    apply tryUnder2_none
    simp only [under2]
    exact isPrefixOf_cons_false _ _ (Ne.symm h3)
  have nu1 : tryUnder1 (c :: t) = none := by
    apply tryUnder1_none
    simp [h3]
  simp [attempt, n3, n2, n1, nt, ne', nu2, nu1]

/-- At the start of a well-separated delimited run, the delimiter scan
matches exactly that run: the branches before the run's own spelling
fail, the run's branch fires, and the whole delimited run (opener,
content, closer) is consumed. -/
theorem attempt_delim (d : Delim) (s r : List Char)
    (hs : plainOk s = true) (hr : headNotSpecial r = true) :
    attempt (delimChars d ++ s ++ delimChars d ++ r)
      = some (delimKind d, s, r) := by
  obtain ⟨hne, hsall⟩ := plainOk_dest hs
  obtain ⟨c₀, s₀, rfl⟩ : ∃ c₀ s₀, s = c₀ :: s₀ := by
    cases s with
    | nil => exact absurd rfl hne
    | cons a b => exact ⟨a, b, rfl⟩
  obtain ⟨hc1, hc2, hc3, hc4⟩ := isSpecial_false_ne (hsall c₀ (by simp))
  cases d with
  | d3star =>
    rw [show delimChars Delim.d3star ++ (c₀ :: s₀) ++ delimChars Delim.d3star ++ r
        = '*' :: '*' :: '*' :: ((c₀ :: s₀) ++ '*' :: '*' :: '*' :: r) from by
      simp [delimChars, star3]]
    have h3 := tryStar3_delim (c₀ :: s₀) r hsall
    simp only [List.cons_append] at h3
    simp [attempt, h3, delimKind]
  | d2star =>
    rw [show delimChars Delim.d2star ++ (c₀ :: s₀) ++ delimChars Delim.d2star ++ r
        = '*' :: '*' :: ((c₀ :: s₀) ++ '*' :: '*' :: r) from by
      simp [delimChars, star2]]
    have n3 : tryStar3 ('*' :: '*' :: ((c₀ :: s₀) ++ '*' :: '*' :: r)) = none := by
      apply tryStar3_none
      rw [show ('*' :: '*' :: ((c₀ :: s₀) ++ '*' :: '*' :: r))
          = '*' :: '*' :: c₀ :: (s₀ ++ '*' :: '*' :: r) from by simp]
      simp only [star3]
      exact isPrefixOf3_false_third _ (Ne.symm hc1)
    have h2 := tryStar2_delim (c₀ :: s₀) r hsall
    simp only [List.cons_append] at n3 h2
    simp [attempt, n3, h2, delimKind]
  | d1star =>
    rw [show delimChars Delim.d1star ++ (c₀ :: s₀) ++ delimChars Delim.d1star ++ r
        = '*' :: ((c₀ :: s₀) ++ '*' :: r) from by simp [delimChars]]
    have hsh : ('*' :: ((c₀ :: s₀) ++ '*' :: r)) = '*' :: c₀ :: (s₀ ++ '*' :: r) := by
      simp
    have n3 : tryStar3 ('*' :: ((c₀ :: s₀) ++ '*' :: r)) = none := by
      apply tryStar3_none
      rw [hsh]
      simp only [star3]
      exact isPrefixOf3_false_second _ (Ne.symm hc1)
    have n2 : tryStar2 ('*' :: ((c₀ :: s₀) ++ '*' :: r)) = none := by
      apply tryStar2_none
      rw [hsh]
      simp only [star2]
      exact isPrefixOf2_false_second _ (Ne.symm hc1)
    have h1 := tryStar1_delim (c₀ :: s₀) r hsall (by simp) hr
    simp only [List.cons_append] at n3 n2 h1
    simp [attempt, n3, n2, h1, delimKind]
  | dtick =>
    rw [show delimChars Delim.dtick ++ (c₀ :: s₀) ++ delimChars Delim.dtick ++ r
        = '`' :: ((c₀ :: s₀) ++ '`' :: r) from by simp [delimChars]]
    have n3 : tryStar3 ('`' :: ((c₀ :: s₀) ++ '`' :: r)) = none := by
      apply tryStar3_none
      simp only [star3]
      exact isPrefixOf_cons_false _ _ (by decide)
    have n2 : tryStar2 ('`' :: ((c₀ :: s₀) ++ '`' :: r)) = none := by
      apply tryStar2_none
      simp only [star2]
      exact isPrefixOf_cons_false _ _ (by decide)
    have n1 : tryStar1 ('`' :: ((c₀ :: s₀) ++ '`' :: r)) = none := by
      apply tryStar1_none
      simp
    have ht := tryTick_delim (c₀ :: s₀) r hsall
    simp only [List.cons_append] at n3 n2 n1 ht
    simp [attempt, n3, n2, n1, ht, delimKind]
  | d2eq =>
    rw [show delimChars Delim.d2eq ++ (c₀ :: s₀) ++ delimChars Delim.d2eq ++ r
        = '=' :: '=' :: ((c₀ :: s₀) ++ '=' :: '=' :: r) from by
      simp [delimChars, eq2c]]
    have n3 : tryStar3 ('=' :: '=' :: ((c₀ :: s₀) ++ '=' :: '=' :: r)) = none := by
      apply tryStar3_none
      simp only [star3]
      exact isPrefixOf_cons_false _ _ (by decide)
    have n2 : tryStar2 ('=' :: '=' :: ((c₀ :: s₀) ++ '=' :: '=' :: r)) = none := by
      apply tryStar2_none
      simp only [star2]
      exact isPrefixOf_cons_false _ _ (by decide)
    have n1 : tryStar1 ('=' :: '=' :: ((c₀ :: s₀) ++ '=' :: '=' :: r)) = none := by
      apply tryStar1_none
      simp
    have nt : tryTick ('=' :: '=' :: ((c₀ :: s₀) ++ '=' :: '=' :: r)) = none := by
      apply tryTick_none
      simp
    have he := tryEq_delim (c₀ :: s₀) r hsall
    simp only [List.cons_append] at n3 n2 n1 nt he
    simp [attempt, n3, n2, n1, nt, he, delimKind]
  | d2under =>
    rw [show delimChars Delim.d2under ++ (c₀ :: s₀) ++ delimChars Delim.d2under ++ r
        = '_' :: '_' :: ((c₀ :: s₀) ++ '_' :: '_' :: r) from by
      simp [delimChars, under2]]
    have n3 : tryStar3 ('_' :: '_' :: ((c₀ :: s₀) ++ '_' :: '_' :: r)) = none := by
      apply tryStar3_none
      simp only [star3]
      exact isPrefixOf_cons_false _ _ (by decide)
    have n2 : tryStar2 ('_' :: '_' :: ((c₀ :: s₀) ++ '_' :: '_' :: r)) = none := by
      apply tryStar2_none
      simp only [star2]
      exact isPrefixOf_cons_false _ _ (by decide)
    have n1 : tryStar1 ('_' :: '_' :: ((c₀ :: s₀) ++ '_' :: '_' :: r)) = none := by
      apply tryStar1_none
      simp
    have nt : tryTick ('_' :: '_' :: ((c₀ :: s₀) ++ '_' :: '_' :: r)) = none := by
      apply tryTick_none
      simp
    have ne' : tryEq ('_' :: '_' :: ((c₀ :: s₀) ++ '_' :: '_' :: r)) = none := by
      apply tryEq_none
      simp only [eq2c]
      exact isPrefixOf_cons_false _ _ (by decide)
    have hu := tryUnder2_delim (c₀ :: s₀) r hsall
    simp only [List.cons_append] at n3 n2 n1 nt ne' hu
    simp [attempt, n3, n2, n1, nt, ne', hu, delimKind]
  | d1under =>
    rw [show delimChars Delim.d1under ++ (c₀ :: s₀) ++ delimChars Delim.d1under ++ r
        = '_' :: ((c₀ :: s₀) ++ '_' :: r) from by simp [delimChars]]
    have hsh : ('_' :: ((c₀ :: s₀) ++ '_' :: r)) = '_' :: c₀ :: (s₀ ++ '_' :: r) := by
      simp
    have n3 : tryStar3 ('_' :: ((c₀ :: s₀) ++ '_' :: r)) = none := by
      apply tryStar3_none
      simp only [star3]
      exact isPrefixOf_cons_false _ _ (by decide)
    have n2 : tryStar2 ('_' :: ((c₀ :: s₀) ++ '_' :: r)) = none := by
      apply tryStar2_none
      simp only [star2]
      exact isPrefixOf_cons_false _ _ (by decide)
    have n1 : tryStar1 ('_' :: ((c₀ :: s₀) ++ '_' :: r)) = none := by
      apply tryStar1_none
      simp
    have nt : tryTick ('_' :: ((c₀ :: s₀) ++ '_' :: r)) = none := by
      apply tryTick_none
      simp
    have ne' : tryEq ('_' :: ((c₀ :: s₀) ++ '_' :: r)) = none := by
      apply tryEq_none
      simp only [eq2c]
      exact isPrefixOf_cons_false _ _ (by decide)
    have nu2 : tryUnder2 ('_' :: ((c₀ :: s₀) ++ '_' :: r)) = none := by
      apply tryUnder2_none
      rw [hsh]
      simp only [under2]
      exact isPrefixOf2_false_second _ (Ne.symm hc3)
    have hu := tryUnder1_delim (c₀ :: s₀) r hsall (by simp) hr
    simp only [List.cons_append] at n3 n2 n1 nt ne' nu2 hu
    simp [attempt, n3, n2, n1, nt, ne', nu2, hu, delimKind]

/-- `renderItems` unfolds one run. -/
theorem renderItems_cons (it : MdItem) (rest : List MdItem) :
    renderItems (it :: rest) = renderItem it ++ renderItems rest := by
  simp [renderItems]

/-- Unfolding `scan` at a successful delimiter attempt (any text
shape). -/
theorem scan_attempt {t : List Char} {k : SegType} {cont rest : List Char}
    (h : attempt t = some (k, cont, rest)) :
    scan t = (if cont = [] then [] else [⟨k, cont⟩]) ++ scan rest := by
  cases t with
  | nil =>
    rw [show attempt ([] : List Char) = none from by decide] at h
    cases h
  | cons c t' => exact scan_cons_attempt h

/-- The first delimiter character after a plain tail is the head of the
following delimited run. -/
theorem findIdxSp_before_delim (s₀ : List Char)
    (hs : ∀ c ∈ s₀, isSpecial c = false)
    (d : Delim) (s' : List Char) (rest' : List MdItem) :
    findIdxSp (s₀ ++ renderItems (MdItem.delimRun d s' :: rest'))
      = some s₀.length := by
  cases d <;>
    (simp only [renderItems, renderItem, delimChars, star3, star2, eq2c, under2,
      List.map_cons, List.flatten_cons, List.cons_append, List.append_assoc]
     exact findIdxSp_append s₀ _ _ hs (by decide))

/-- The rendering of a balanced sequence allowed after a delimited run
starts with a non-delimiter character (or is empty). -/
theorem renderItems_headNotSpecial (rest : List MdItem)
    (hok : headOkAfterDelim rest = true) (hb : balancedItems rest = true) :
    headNotSpecial (renderItems rest) = true := by
  cases rest with
  | nil => rfl
  | cons it rest' =>
    cases it with
    | plainRun s' =>
      simp only [balancedItems, Bool.and_eq_true] at hb
      obtain ⟨hne, hsall⟩ := plainOk_dest hb.1.1
      obtain ⟨c₀, s₀, rfl⟩ : ∃ a b, s' = a :: b := by
        cases s' with
        | nil => exact absurd rfl hne
        | cons a b => exact ⟨a, b, rfl⟩
      simp only [renderItems, renderItem, List.map_cons, List.flatten_cons,
        List.cons_append]
      simp [headNotSpecial, hsall c₀ (by simp)]
    | delimRun d s' => simp [headOkAfterDelim] at hok

/-- The scanning loop of `_parse_inline_format` on a balanced text
produces exactly one segment per run: a normal segment for each plain
run and a typed segment for each delimited run. -/
theorem scan_balanced : ∀ (items : List MdItem),
    balancedItems items = true →
    scan (renderItems items) = itemSegs items := by
  intro items
  induction items with
  | nil => intro _; rfl
  | cons it rest ih =>
    intro hb
    cases it with
    | plainRun s =>
      simp only [balancedItems, Bool.and_eq_true] at hb
      obtain ⟨⟨hpo, hafter⟩, hbrest⟩ := hb
      obtain ⟨hne, hsall⟩ := plainOk_dest hpo
      obtain ⟨c₀, s₀, rfl⟩ : ∃ a b, s = a :: b := by
        cases s with
        | nil => exact absurd rfl hne
        | cons a b => exact ⟨a, b, rfl⟩
      have hc₀ := hsall c₀ (by simp)
      have hs₀ : ∀ c ∈ s₀, isSpecial c = false :=
        fun c hc => hsall c (by simp [hc])
      rw [renderItems_cons]
      cases rest with
      | nil =>
        rw [show renderItems ([] : List MdItem) = [] from rfl, List.append_nil]
        rw [show renderItem (MdItem.plainRun (c₀ :: s₀)) = c₀ :: s₀ from rfl]
        rw [scan_cons_normal (attempt_nonspecial s₀ hc₀)]
        rw [findIdxSp_none s₀ hs₀]
        rfl
      | cons it' rest' =>
        cases it' with
        | plainRun s2 => simp [headOkAfterPlain] at hafter
        | delimRun d' s2 =>
          rw [show renderItem (MdItem.plainRun (c₀ :: s₀)) = c₀ :: s₀ from rfl,
            List.cons_append]
          rw [scan_cons_normal (attempt_nonspecial _ hc₀)]
          rw [findIdxSp_before_delim s₀ hs₀ d' s2 rest']
          dsimp only
          rw [show List.take s₀.length
              (s₀ ++ renderItems (MdItem.delimRun d' s2 :: rest')) = s₀ from
            List.take_left s₀ _]
          rw [show List.drop s₀.length
              (s₀ ++ renderItems (MdItem.delimRun d' s2 :: rest'))
              = renderItems (MdItem.delimRun d' s2 :: rest') from
            List.drop_left s₀ _]
          rw [ih hbrest]
          rfl
    | delimRun d s =>
      simp only [balancedItems, Bool.and_eq_true] at hb
      obtain ⟨⟨hpo, hafter⟩, hbrest⟩ := hb
      have hrns := renderItems_headNotSpecial rest hafter hbrest
      have hatt := attempt_delim d s (renderItems rest) hpo hrns
      rw [renderItems_cons]
      rw [show renderItem (MdItem.delimRun d s)
          = delimChars d ++ s ++ delimChars d from rfl]
      have hshape : (delimChars d ++ s ++ delimChars d) ++ renderItems rest
          = delimChars d ++ s ++ delimChars d ++ renderItems rest := rfl
      rw [hshape, scan_attempt hatt]
      rw [if_neg (plainOk_dest hpo).1, ih hbrest]
      rfl

/-- No delimited kind is the normal kind. -/
theorem delimKind_ne_normal (d : Delim) : delimKind d ≠ SegType.normal := by
  cases d <;> simp [delimKind]

/-- Segments of a balanced sequence have non-empty contents. -/
theorem itemSegs_contents : ∀ (items : List MdItem),
    balancedItems items = true →
    ∀ s ∈ itemSegs items, s.content ≠ [] := by
  intro items
  induction items with
  | nil => intro _ s hs; simp [itemSegs] at hs
  | cons it rest ih =>
    intro hb s hs
    cases it with
    | plainRun s' =>
      simp only [balancedItems, Bool.and_eq_true] at hb
      simp only [itemSegs, List.mem_cons] at hs
      rcases hs with rfl | hs
      · exact (plainOk_dest hb.1.1).1
      · exact ih hb.2 s hs
    | delimRun d s' =>
      simp only [balancedItems, Bool.and_eq_true] at hb
      simp only [itemSegs, List.mem_cons] at hs
      rcases hs with rfl | hs
      · exact (plainOk_dest hb.1.1).1
      · exact ih hb.2 s hs

/-- In the segments of a balanced sequence no two adjacent segments are
both normal. -/
theorem itemSegs_chain : ∀ (items : List MdItem),
    balancedItems items = true →
    List.Chain' (fun a b : Seg =>
      ¬ (a.type = SegType.normal ∧ b.type = SegType.normal)) (itemSegs items) := by
  intro items
  induction items with
  | nil => intro _; exact List.chain'_nil
  | cons it rest ih =>
    intro hb
    cases it with
    | plainRun s' =>
      simp only [balancedItems, Bool.and_eq_true] at hb
      obtain ⟨⟨hpo, hafter⟩, hbrest⟩ := hb
      rw [show itemSegs (MdItem.plainRun s' :: rest)
          = ⟨SegType.normal, s'⟩ :: itemSegs rest from rfl]
      rw [List.chain'_cons']
      refine ⟨?_, ih hbrest⟩
      intro y hy
      cases rest with
      | nil => simp [itemSegs] at hy
      | cons it' rest' =>
        cases it' with
        | plainRun s2 => simp [headOkAfterPlain] at hafter
        | delimRun d' s2 =>
          simp only [itemSegs, List.head?_cons, Option.mem_def,
            Option.some.injEq] at hy
          subst hy
          intro hcontra
          exact delimKind_ne_normal d' hcontra.2
    | delimRun d s' =>
      simp only [balancedItems, Bool.and_eq_true] at hb
      obtain ⟨⟨hpo, hafter⟩, hbrest⟩ := hb
      rw [show itemSegs (MdItem.delimRun d s' :: rest)
          = ⟨delimKind d, s'⟩ :: itemSegs rest from rfl]
      rw [List.chain'_cons']
      refine ⟨?_, ih hbrest⟩
      intro y hy
      intro hcontra
      exact delimKind_ne_normal d hcontra.1

/-- The merge pass is the identity on a segment list with non-empty
contents and no two adjacent normal segments. -/
theorem foldl_mergeStep_of_sep : ∀ (l acc : List Seg),
    (∀ s ∈ l, s.content ≠ []) →
    List.Chain' (fun a b : Seg =>
      ¬ (a.type = SegType.normal ∧ b.type = SegType.normal)) (acc ++ l) →
    l.foldl mergeStep acc = acc ++ l := by
  intro l
  induction l with
  | nil => intro acc h1 h2; simp
  | cons s l ih =>
    intro acc h1 h2
    rw [List.foldl_cons]
    have hstep : mergeStep acc s = acc ++ [s] := by
      simp only [mergeStep]
      rw [if_neg (h1 s (by simp))]
      split
      · rename_i lastSeg hlast
        rw [List.chain'_append] at h2
        have hR := h2.2.2 lastSeg hlast s (by simp)
        rw [if_neg (fun hc => hR ⟨hc.2, hc.1⟩)]
      · rename_i hlast
        have hacc : acc = [] := by
          cases acc with
          | nil => rfl
          | cons x xs => simp [List.getLast?_eq_none_iff] at hlast
        subst hacc
        simp
    rw [hstep]
    rw [ih (acc ++ [s]) (fun x hx => h1 x (by simp [hx]))
      (by simpa [List.append_assoc] using h2)]
    simp

/-- Concatenating the segments of a balanced sequence strips exactly
the delimiter markers. -/
theorem segsText_itemSegs : ∀ (items : List MdItem),
    segsText (itemSegs items) = stripItems items := by
  intro items
  induction items with
  | nil => rfl
  | cons it rest ih =>
    cases it with
    | plainRun s => simp [itemSegs, segsText, stripItems] at ih ⊢; exact ih
    | delimRun d s => simp [itemSegs, segsText, stripItems] at ih ⊢; exact ih

/-- C7 (corrected): for texts with balanced delimiters — assembled from
non-empty plain runs free of delimiter characters and delimited
non-empty runs, a delimited run always followed by a plain run or the
end — concatenating the contents of the spans `_parse_inline_format`
returns, in order, reproduces the text with the delimiter markers
removed.  (With empty delimited content the markers are not always
removed: see the counterexample.) -/
theorem tokenizer_round_trip_balanced (items : List MdItem)
    (hb : balancedItems items = true) :
    segsText (parseInline (renderItems items)) = stripItems items := by
  cases items with
  | nil => decide
  | cons it rest =>
    have hscan := scan_balanced (it :: rest) hb
    have hmerge : mergeSegs (itemSegs (it :: rest)) = itemSegs (it :: rest) := by
      unfold mergeSegs
      have := foldl_mergeStep_of_sep (itemSegs (it :: rest)) []
        (itemSegs_contents _ hb) (by simpa using itemSegs_chain _ hb)
      simpa using this
    have hne : itemSegs (it :: rest) ≠ [] := by
      cases it <;> simp [itemSegs]
    simp only [parseInline, hscan, hmerge, if_neg hne]
    exact segsText_itemSegs (it :: rest)

/-- Witness for C7 at the text `Hello **world**`. -/
theorem tokenizer_round_trip_balanced_witness :
    segsText (parseInline (renderItems
        [MdItem.plainRun (("Hello ").toList),
         MdItem.delimRun Delim.d2star (("world").toList)]))
      = stripItems
        [MdItem.plainRun (("Hello ").toList),
         MdItem.delimRun Delim.d2star (("world").toList)] :=
  tokenizer_round_trip_balanced _ (by decide)

/-- C7 counterexample: the balanced text `====` (one matched `==` pair
with empty content) tokenizes to one normal span `====`; its
concatenated content is the whole input, not the marker-stripped empty
text. -/
theorem tokenizer_round_trip_fails_empty_content :
    segsText (parseInline (("====").toList)) = ("====").toList
    ∧ ("====").toList ≠ ([] : List Char) := by
  constructor
  · decide
  · decide

end MdImg
